import Mathlib

/-!
Verification development for the des-gui core engine: the dynamically typed
value tree with its dotted-path resolver (src/plot/mod.rs), the flat-key
unifier and empty-branch pruner (src/inspector/mod.rs), the breakpoint
evaluator (src/breakpoint.rs) and the log capture layer (src/tracing.rs).
Rust strings are modelled as lists of characters (all keys of interest are
ASCII, so byte positions coincide with character positions), mappings as
insertion-ordered association lists with unique keys, and machine-integer
underflow as an explicit crash outcome.
-/

namespace DesGui

/-- Rust `&str` / `String`, modelled as a list of characters. -/
abbrev Str := List Char

/-- The serde value tree: null / bool / number / string / sequence / mapping
(insertion ordered, string keys) / tagged wrapper. Numbers are modelled as
integers; no claim depends on number arithmetic. -/
inductive Value where
  | null
  | bool (b : Bool)
  | number (n : Int)
  | string (s : Str)
  | sequence (xs : List Value)
  | mapping (m : List (Str × Value))
  | tagged (tag : Str) (inner : Value)

instance : Inhabited Value := ⟨Value.null⟩

/-- A mapping payload: an insertion-ordered association list. -/
abbrev MappingE := List (Str × Value)

mutual

/-- Structural equality on values (serde `PartialEq`), written out because the
nested inductive admits no derived instance. -/
def Value.beq : Value → Value → Bool
  | .null, .null => true
  | .bool a, .bool b => a == b
  | .number a, .number b => a == b
  | .string a, .string b => a == b
  | .sequence xs, .sequence ys => beqVList xs ys
  | .mapping xs, .mapping ys => beqVMap xs ys
  | .tagged t a, .tagged u b => t == u && Value.beq a b
  | _, _ => false

def beqVList : List Value → List Value → Bool
  | [], [] => true
  | x :: xs, y :: ys => Value.beq x y && beqVList xs ys
  | _, _ => false

def beqVMap : List (Str × Value) → List (Str × Value) → Bool
  | [], [] => true
  | (k, x) :: xs, (l, y) :: ys => k == l && Value.beq x y && beqVMap xs ys
  | _, _ => false

end

theorem valueBeqSpec : ∀ n,
    (∀ a b : Value, sizeOf a ≤ n → (Value.beq a b = true ↔ a = b))
    ∧ (∀ xs ys : List Value, sizeOf xs ≤ n → (beqVList xs ys = true ↔ xs = ys))
    ∧ (∀ xs ys : List (Str × Value), sizeOf xs ≤ n →
        (beqVMap xs ys = true ↔ xs = ys)) := by
  intro n
  induction n with
  | zero =>
    refine ⟨fun a _ ha => ?_, fun xs _ hx => ?_, fun xs _ hx => ?_⟩
    · cases a <;> simp at ha
    · cases xs <;> simp at hx
    · cases xs <;> simp at hx
  | succ n ih =>
    obtain ⟨ihv, ihl, ihm⟩ := ih
    refine ⟨fun a b ha => ?_, fun xs ys hx => ?_, fun xs ys hx => ?_⟩
    · cases a <;> cases b <;>
        simp only [Value.beq, Bool.and_eq_true, beq_iff_eq] <;> try simp
      · rename_i xs ys
        exact ihl xs ys (by simp at ha; omega)
      · rename_i ms ns
        exact ihm ms ns (by simp at ha; omega)
      · rename_i t a u b
        intro _
        exact ihv a b (by simp at ha; omega)
    · cases xs <;> cases ys <;>
        simp only [beqVList, Bool.and_eq_true, List.cons.injEq] <;> try simp
      rename_i x xs' y ys'
      exact and_congr (ihv x y (by simp at hx; omega))
        (ihl xs' ys' (by simp at hx; omega))
    · cases xs with
      | nil => cases ys <;> simp [beqVMap]
      | cons hd tl =>
        obtain ⟨k, x⟩ := hd
        cases ys with
        | nil => simp [beqVMap]
        | cons hd2 tl2 =>
          obtain ⟨l, y⟩ := hd2
          simp only [beqVMap, Bool.and_eq_true, beq_iff_eq, Prod.mk.injEq,
            List.cons.injEq]
          exact and_congr (and_congr Iff.rfl (ihv x y (by simp at hx; omega)))
            (ihm tl tl2 (by simp at hx; omega))

instance : DecidableEq Value := fun a b =>
  if h : Value.beq a b = true then
    isTrue (((valueBeqSpec (sizeOf a)).1 a b le_rfl).mp h)
  else
    isFalse fun hc => h (((valueBeqSpec (sizeOf a)).1 a b le_rfl).mpr hc)

/-- Rust `Mapping::get` with a string index: the first entry with the given key. -/
def mget : MappingE → Str → Option Value
  | [], _ => none
  | (k', v) :: rest, k => if k' = k then some v else mget rest k

theorem mget_sizeOf_lt {m : MappingE} {k : Str} {v : Value}
    (h : mget m k = some v) : sizeOf v < sizeOf m := by
  induction m with
  | nil => simp [mget] at h
  | cons p rest ih =>
    obtain ⟨k', v'⟩ := p
    by_cases hk : k' = k
    · simp [mget, hk] at h
      subst h
      simp
      omega
    · simp [mget, hk] at h
      have := ih h
      simp
      omega

/-- Index of the rightmost occurrence of `c` (Rust `str::rfind`). -/
def rfindPos (c : Char) : Str → Option Nat
  | [] => none
  | x :: xs =>
    match rfindPos c xs with
    | some i => some (i + 1)
    | none => if x = c then some 0 else none

theorem rfindPos_lt {c : Char} {l : Str} {i : Nat}
    (h : rfindPos c l = some i) : i < l.length := by
  induction l generalizing i with
  | nil => simp [rfindPos] at h
  | cons x xs ih =>
    simp only [rfindPos] at h
    cases hr : rfindPos c xs with
    | some j =>
      rw [hr] at h
      cases h
      have := ih hr
      simp
      omega
    | none =>
      rw [hr] at h
      by_cases hx : x = c
      · rw [if_pos hx] at h
        cases h
        simp
      · simp [hx] at h

/-- The candidate position for window size `n`:
`key[..n].rfind('.').unwrap_or(n)`. -/
def rposD (key : Str) (n : Nat) : Nat :=
  (rfindPos '.' (key.take n)).getD n

theorem rposD_le (key : Str) (n : Nat) : rposD key n ≤ n := by
  unfold rposD
  cases h : rfindPos '.' (key.take n) with
  | none => simp
  | some i =>
    have := rfindPos_lt h
    have hlen : (key.take n).length ≤ n := by simp
    simp
    omega

/-- Outcome of the prefix-shrinking loop inside `access` over a mapping:
either a key hit (with the matched value and the split position), a normal
exit, or the `pos - 1` underflow crash the loop hits when `pos = 0`. -/
inductive Scan where
  | crash
  | hit (v : Value) (pos : Nat)
  | miss
deriving DecidableEq

/-- The `while include > 0` loop of `access` (src/plot/mod.rs:108-117): at
window size `n`, the candidate prefix is `key[..pos]` where `pos` is
`key[..n].rfind('.').unwrap_or(n)`; on a miss the window shrinks to
`pos - 1`, which underflows (crash) when `pos = 0`. The first argument is
fuel burning one unit per iteration, so the recursion is structural; since
the window shrinks by at least one per iteration, fuel equal to the initial
window size is always enough (`prefixScanF_fuel`). -/
def prefixScanF (m : MappingE) (key : Str) : Nat → Nat → Scan
  | _, 0 => .miss
  | 0, _ + 1 => .miss
  | f + 1, n + 1 =>
    match mget m (key.take (rposD key (n + 1))) with
    | some v => .hit v (rposD key (n + 1))
    | none =>
      if rposD key (n + 1) = 0 then .crash
      else prefixScanF m key f (rposD key (n + 1) - 1)

/-- The prefix loop entered with window size `n` (equals the key length at
the call site in `access`). -/
def prefixScan (m : MappingE) (key : Str) (n : Nat) : Scan :=
  prefixScanF m key n n

theorem prefixScanF_fuel {m : MappingE} {key : Str} :
    ∀ n f f', n ≤ f → n ≤ f' →
      prefixScanF m key f n = prefixScanF m key f' n := by
  intro n
  induction n using Nat.strong_induction_on with
  | _ n ih =>
    intro f f' hf hf'
    match n, f, f' with
    | 0, f, f' => cases f <;> cases f' <;> rfl
    | n + 1, f + 1, f' + 1 =>
      simp only [prefixScanF]
      cases mget m (key.take (rposD key (n + 1))) with
      | some v => rfl
      | none =>
        by_cases hz : rposD key (n + 1) = 0
        · simp [hz]
        · have hle := rposD_le key (n + 1)
          simp only [hz, if_false]
          exact ih (rposD key (n + 1) - 1) (by omega) f f' (by omega) (by omega)

/-- One unfolding step of the loop, with the fuel bookkeeping hidden. -/
theorem prefixScan_succ (m : MappingE) (key : Str) (n : Nat) :
    prefixScan m key (n + 1) =
      match mget m (key.take (rposD key (n + 1))) with
      | some v => .hit v (rposD key (n + 1))
      | none =>
        if rposD key (n + 1) = 0 then .crash
        else prefixScan m key (rposD key (n + 1) - 1) := by
  show prefixScanF m key (n + 1) (n + 1) = _
  simp only [prefixScanF]
  cases mget m (key.take (rposD key (n + 1))) with
  | some v => rfl
  | none =>
    by_cases hz : rposD key (n + 1) = 0
    · simp [hz]
    · have hle := rposD_le key (n + 1)
      simp only [hz, if_false]
      exact prefixScanF_fuel (rposD key (n + 1) - 1) n (rposD key (n + 1) - 1)
        (by omega) (by omega)

/-- Rust `str::split_once`. -/
def splitOnce (c : Char) : Str → Option (Str × Str)
  | [] => none
  | x :: xs =>
    if x = c then some ([], xs)
    else
      match splitOnce c xs with
      | some (a, b) => some (x :: a, b)
      | none => none

/-- Rust `str::parse::<usize>`: optional leading plus sign, then at least one
decimal digit. Overflow is ignored: a path segment long enough to overflow a
`usize` can never index an actual sequence. -/
def parseUsize (s : Str) : Option Nat :=
  let t := match s with
    | '+' :: rest => rest
    | _ => s
  if t ≠ [] ∧ t.all Char.isDigit
  then some (t.foldl (fun a c => a * 10 + (c.toNat - 48)) 0)
  else none

theorem prefixScanF_hit_sizeOf {m : MappingE} {key : Str} {v : Value}
    {pos : Nat} :
    ∀ {f n : Nat}, prefixScanF m key f n = .hit v pos → sizeOf v < sizeOf m := by
  intro f
  induction f with
  | zero =>
    intro n h
    cases n <;> simp [prefixScanF] at h
  | succ f ih =>
    intro n h
    match n with
    | 0 => simp [prefixScanF] at h
    | n + 1 =>
      rw [prefixScanF] at h
      cases hg : mget m (key.take (rposD key (n + 1))) with
      | some v' =>
        rw [hg] at h
        cases h
        exact mget_sizeOf_lt hg
      | none =>
        rw [hg] at h
        by_cases hz : rposD key (n + 1) = 0
        · simp [hz] at h
        · simp only [hz, if_false] at h
          exact ih h

theorem prefixScan_hit_sizeOf {m : MappingE} {key : Str} {n : Nat} {v : Value}
    {pos : Nat} (h : prefixScan m key n = .hit v pos) : sizeOf v < sizeOf m :=
  prefixScanF_hit_sizeOf h

/-- Result of running `access`: a normal `Option<Value>` or a crash
propagated from the prefix loop underflow. -/
inductive RRes where
  | crash
  | ok (v : Option Value)
deriving DecidableEq

/-- The dotted-path resolver `access` (src/plot/mod.rs:104-135). Empty path
returns the node; a mapping runs the prefix-shrinking loop and falls back to
the whole key; a sequence splits off a leading decimal index; any other node
with a non-empty path yields `None`. -/
def access (v : Value) (key : Str) : RRes :=
  if key = [] then .ok (some v)
  else
    match v with
    | .mapping m =>
      match hs : prefixScan m key key.length with
      | .crash => .crash
      | .hit val pos => access val (key.drop (min (pos + 1) key.length))
      | .miss =>
        match hf : mget m key with
        | some val => access val []
        | none => .ok none
    | .sequence seq =>
      match (splitOnce '.' key).getD (key, []) with
      | (index, rem) =>
        match parseUsize index with
        | none => .ok none
        | some i =>
          match hg : seq.get? i with
          | none => .ok none
          | some el => access el rem
    | _ => .ok none
termination_by sizeOf v
decreasing_by
  · have := prefixScan_hit_sizeOf hs
    simp
    omega
  · have := mget_sizeOf_lt hf
    simp
    omega
  · have := List.sizeOf_lt_of_mem (List.get?_mem hg)
    simp
    omega

theorem access_nil (v : Value) : access v [] = .ok (some v) := by
  rw [access.eq_def]
  simp

/-- C1: the prefix search of `access` is claimed to try only dot-delimited
prefixes of the path (then the whole path); in fact `include = pos - 1`
shrinks the window character by character once no dot is left, so for the
dotless path `abc` against the mapping `{"ab": 7}` the non-dot-delimited
prefix `ab` is matched and the result is `Some(7)`, where the claimed search
would find no prefix, fail the whole-path fallback, and return `None`. -/
theorem claim_C1_access_matches_nondot_prefix :
    access (Value.mapping [(['a', 'b'], Value.number 7)]) ['a', 'b', 'c']
      = RRes.ok (some (Value.number 7)) := by
  simp [access, prefixScan, prefixScanF, rposD, rfindPos, mget, access_nil]

/-- C4: `access` is claimed to be total and panic free, the prefix loop
exiting normally even when the only remaining dot sits at position 0; in
fact with path `".c"` against the empty mapping the loop computes
`pos = 0`, misses on the empty-prefix lookup, and `include = pos - 1`
underflows the `usize`, a panic (modelled as the crash outcome). -/
theorem claim_C4_access_crashes_on_leading_dot :
    access (Value.mapping []) ['.', 'c'] = RRes.crash := by
  simp [access, prefixScan, prefixScanF, rposD, rfindPos, mget]

/-- C5: literal dotted keys and nested structure resolve identically:
`access {"a.b": X} "a.b" = Some X`, `access {"a": {"b": X}} "a.b" = Some X`,
and for `{"inet": {"v6.solicitations": ["a","b"]}}` the path
`"inet.v6.solicitations"` resolves to `["a","b"]`. -/
theorem claim_C5_access_multi_keys :
    (∀ X : Value,
      access (Value.mapping [(['a', '.', 'b'], X)]) ['a', '.', 'b']
        = RRes.ok (some X))
    ∧ (∀ X : Value,
      access (Value.mapping [(['a'], Value.mapping [(['b'], X)])])
          ['a', '.', 'b']
        = RRes.ok (some X))
    ∧ access
        (Value.mapping [(['i', 'n', 'e', 't'],
          Value.mapping [(['v', '6', '.', 's', 'o', 'l', 'i', 'c', 'i', 't',
              'a', 't', 'i', 'o', 'n', 's'],
            Value.sequence [Value.string ['a'], Value.string ['b']])])])
        ['i', 'n', 'e', 't', '.', 'v', '6', '.', 's', 'o', 'l', 'i', 'c',
          'i', 't', 'a', 't', 'i', 'o', 'n', 's']
      = RRes.ok (some (Value.sequence [Value.string ['a'], Value.string ['b']])) := by
  refine ⟨fun X => ?_, fun X => ?_, ?_⟩ <;>
    simp [access, prefixScan, prefixScanF, rposD, rfindPos, mget, access_nil]

/-- Breakpoint trigger kinds (src/breakpoint.rs:19-25). -/
inductive BreakpointKind where
  | Disabled
  | OnValueChanged
  | OnValueAppeared
  | OnValueDisappeared
deriving DecidableEq

/-- Rust `ControlFlow<()>`: `Break(())` or `Continue(())`. -/
inductive CFlow where
  | brk
  | cont
deriving DecidableEq

/-- Breakpoint state (src/breakpoint.rs:10-17); the entity path is an opaque
string here. -/
structure Breakpoint where
  path : Str
  key : Str
  kind : BreakpointKind
  last : Option Value
  triggered : Bool
deriving DecidableEq

/-- Model of `Breakpoint::update_inner` (src/breakpoint.rs:36-55). The
`observers.get(&self.path).and_then(|v| access(v, &self.key))` resolution is
passed in as `value`, so the state machine is analysed for every pair of
previous and current resolved values. Returns the updated breakpoint
(`last = value`) and the control-flow result. -/
def Breakpoint.update_inner (b : Breakpoint) (value : Option Value) :
    Breakpoint × CFlow :=
  let ret := match b.kind with
    | .Disabled => CFlow.cont
    | .OnValueChanged => if b.last = value then CFlow.cont else CFlow.brk
    | .OnValueAppeared =>
      if b.last.isNone && value.isSome then CFlow.brk else CFlow.cont
    | .OnValueDisappeared =>
      if b.last.isSome && value.isNone then CFlow.brk else CFlow.cont
  ({ b with last := value }, ret)

/-- Model of `Breakpoint::update` (src/breakpoint.rs:28-34): clear `triggered`, run
`update_inner`, and in the `map_break` closure set `triggered` again when
the result is `Break`. -/
def Breakpoint.update (b : Breakpoint) (value : Option Value) :
    Breakpoint × CFlow :=
  let b1 : Breakpoint := { b with triggered := false }
  let r := Breakpoint.update_inner b1 value
  match r.2 with
  | CFlow.brk => ({ r.1 with triggered := true }, CFlow.brk)
  | CFlow.cont => (r.1, CFlow.cont)

/-- Triggered flags produced by stepping a breakpoint through a list of
resolved observations. -/
def runSeq (b : Breakpoint) : List (Option Value) → List Bool
  | [] => []
  | cur :: rest =>
    match Breakpoint.update b cur with
    | (b', _) => b'.triggered :: runSeq b' rest

/-- C2: one evaluation step sets `triggered` exactly according to the kind:
`Disabled` never triggers, `OnValueChanged` triggers iff `last ≠ current`
(hence also on disappearance and on a differing seed), `OnValueAppeared`
iff `last` is `None` and `current` is `Some`, `OnValueDisappeared` iff
`last` is `Some` and `current` is `None`; and with kind `OnValueChanged`
(seeded with the displayed value `Some 1`) the observation sequence
`[Some 1, Some 1, Some 2, Some 2]` triggers exactly once, on the third
step. -/
theorem claim_C2_breakpoint_trigger_conditions :
    (∀ (b : Breakpoint) (current : Option Value),
      ((Breakpoint.update b current).1.triggered = true ↔
        match b.kind with
        | .Disabled => False
        | .OnValueChanged => b.last ≠ current
        | .OnValueAppeared => b.last = none ∧ current ≠ none
        | .OnValueDisappeared => b.last ≠ none ∧ current = none))
    ∧ runSeq ⟨[], [], .OnValueChanged, some (Value.number 1), false⟩
        [some (Value.number 1), some (Value.number 1),
          some (Value.number 2), some (Value.number 2)]
      = [false, false, true, false] := by
  constructor
  · intro b current
    obtain ⟨p, k, kind, last, trig⟩ := b
    cases kind
    · simp [Breakpoint.update, Breakpoint.update_inner]
    · by_cases h : last = current <;>
        simp [Breakpoint.update, Breakpoint.update_inner, h]
    · cases last <;> cases current <;>
        simp [Breakpoint.update, Breakpoint.update_inner]
    · cases last <;> cases current <;>
        simp [Breakpoint.update, Breakpoint.update_inner]
  · decide

/-- C7: after every evaluation step, for every kind and whether or not it
triggered, the stored `last` equals the resolved current value, `triggered`
equals the step's control-flow result, and `path`, `key` and `kind` are
unchanged. -/
theorem claim_C7_breakpoint_frame :
    ∀ (b : Breakpoint) (current : Option Value),
      (Breakpoint.update b current).1.last = current
      ∧ ((Breakpoint.update b current).1.triggered
          = ((Breakpoint.update b current).2 = CFlow.brk))
      ∧ (Breakpoint.update b current).1.path = b.path
      ∧ (Breakpoint.update b current).1.key = b.key
      ∧ (Breakpoint.update b current).1.kind = b.kind := by
  intro b current
  obtain ⟨p, k, kind, last, trig⟩ := b
  cases kind
  · simp [Breakpoint.update, Breakpoint.update_inner]
  · by_cases h : last = current <;>
      simp [Breakpoint.update, Breakpoint.update_inner, h]
  · cases last <;> cases current <;>
      simp [Breakpoint.update, Breakpoint.update_inner]
  · cases last <;> cases current <;>
      simp [Breakpoint.update, Breakpoint.update_inner]

/-- Static call-site metadata of a log event: level and target, opaque
strings here. -/
structure LogMeta where
  level : Str
  target : Str
deriving DecidableEq

/-- A captured log event (src/tracing.rs:18-25). -/
structure Event where
  time : Nat
  metadata : LogMeta
  module : Str
  span : Str
  fields : Str
deriving DecidableEq

/-- One active span: its name and its already-formatted field string. -/
structure SpanInfo where
  name : Str
  fields : Str
deriving DecidableEq

/-- The span chain built in src/tracing.rs:96-115: walking the scope from
the root, write each span's name, then the fields in braces when non-empty,
then a colon; afterwards `json.span.pop()` drops the final separator. -/
def spanChain (scope : List SpanInfo) : Str :=
  (scope.foldl
    (fun acc sp =>
      acc ++ sp.name
        ++ (if sp.fields = [] then [] else '\x7b' :: (sp.fields ++ ['\x7d']))
        ++ [':'])
    []).dropLast

/-- Per-module log stream (src/tracing.rs:133-146). -/
structure ModuleLog where
  events : List Event
deriving DecidableEq

/-- Rust `ModuleLog::output` returns the stored events. -/
def ModuleLog.output (l : ModuleLog) : List Event := l.events

/-- Rust `ModuleLog::push` appends one event. -/
def ModuleLog.push (l : ModuleLog) (e : Event) : ModuleLog :=
  ⟨l.events ++ [e]⟩

/-- The per-entity streams map guarded by the mutex in
`GuiTracingObserver`. -/
abbrev Streams := List (Str × ModuleLog)

/-- Rust `streams.entry(module).or_default().push(event)`: append to the
entity's stream, creating it on first use. -/
def streamsPush (s : Streams) (p : Str) (e : Event) : Streams :=
  match s with
  | [] => [(p, ModuleLog.push ⟨[]⟩ e)]
  | (p', l) :: rest =>
    if p' = p then (p', ModuleLog.push l e) :: rest
    else (p', l) :: streamsPush rest p e

/-- Model of `GuiTracingObserver::format_event` (src/tracing.rs:82-124). The
collaborator context is explicit: `current` is the currently executing
entity (`try_current()`), `scope` the active span stack from the root
(`none` when the event carries no scope), `fields` the event's formatted
field string, `time` the simulated time. Returns the updated streams map
and the `fmt::Result`; `try_current().ok_or(std::fmt::Error)?` aborts
before the streams lock is ever taken. -/
def format_event (current : Option Str) (scope : Option (List SpanInfo))
    (fields : Str) (time : Nat) (meta : LogMeta) (streams : Streams) :
    Streams × Except Unit Unit :=
  match current with
  | none => (streams, Except.error ())
  | some module =>
    let ev : Event :=
      { time := time, metadata := meta, module := module,
        span := spanChain (scope.getD []), fields := fields }
    (streamsPush streams module ev, Except.ok ())

/-- C8: when no simulation entity is currently executing, the capture layer
drops the event with a formatting error: no per-entity stream is created or
appended to, and the streams map is returned unchanged. -/
theorem claim_C8_dropped_without_entity :
    ∀ (scope : Option (List SpanInfo)) (fields : Str) (time : Nat)
      (meta : LogMeta) (streams : Streams),
      format_event none scope fields time meta streams
        = (streams, Except.error ()) := by
  intro scope fields time meta streams
  rfl

/-- C10: `ModuleLog` is append-only and order-preserving: after any list of
appends, `output()` returns the previously stored events unchanged and in
order, followed by the appended events in append order. -/
theorem claim_C10_module_log_fifo :
    ∀ (l : ModuleLog) (es : List Event),
      (es.foldl ModuleLog.push l).output = l.output ++ es := by
  intro l es
  induction es generalizing l with
  | nil => simp [ModuleLog.output]
  | cons e rest ih =>
    rw [List.foldl_cons, ih]
    simp [ModuleLog.push, ModuleLog.output]

/-- A flat attribute: a key that may encode hierarchy via `.` and selector
grouping via `@`, and its value. -/
abbrev Attr := Str × Value

/-- The `FxHashMap<&str, Vec<(&str, Cow<Value>)>>` group collection of
`unify`, modelled as an association list in first-insertion order (one
linearisation of the hash map's arbitrary iteration order; no claim depends
on cross-group order). -/
abbrev Groups := List (Str × List Attr)

/-- Rust `groups.entry(group).or_default().push(attr)`. -/
def groupsInsert (gs : Groups) (g : Str) (a : Attr) : Groups :=
  match gs with
  | [] => [(g, [a])]
  | (g', as') :: rest =>
    if g' = g then (g', as' ++ [a]) :: rest
    else (g', as') :: groupsInsert rest g a

/-- serde `Mapping::insert`: replace the value in place when the key
exists, otherwise append the new entry. -/
def minsert : MappingE → Str → Value → MappingE
  | [], k, v => [(k, v)]
  | (k', v') :: rest, k, v =>
    if k' = k then (k', v) :: rest else (k', v') :: minsert rest k v

/-- Strip every leading occurrence of `c`. -/
def trimLeading (c : Char) : Str → Str
  | [] => []
  | x :: xs => if x = c then trimLeading c xs else x :: xs

/-- Rust `str::trim_matches(c)`: strip every leading and trailing
occurrence. -/
def trimMatches (c : Char) (s : Str) : Str :=
  (trimLeading c (trimLeading c s).reverse).reverse

/-- One iteration of the first loop of `unify`
(src/inspector/mod.rs:177-191): split the flat key at the first `@`
(defaulting to the whole key and an empty remainder); an empty `selectable`
part inserts the value directly at top level under the remainder; anything
else joins the group named by the part of `selectable` before its first
`.`, keyed by the suffix of the original key starting after the group name
(skipping the following dot exactly when the dot split left a non-empty
tail). -/
def splitStep (key : Str) (v : Value) (m : MappingE) (gs : Groups) :
    MappingE × Groups :=
  let sel := (splitOnce '@' key).getD (key, [])
  if sel.1 = [] then (minsert m sel.2 v, gs)
  else
    let gsplit := (splitOnce '.' sel.1).getD (sel.1, [])
    let offs :=
      min (gsplit.1.length + 1 - (if gsplit.2 = [] then 1 else 0)) key.length
    (m, groupsInsert gs gsplit.1 (key.drop offs, v))

/-- The first loop of `unify` over all props, threading the top-level
mapping and the group collection. -/
def splitProps : List Attr → MappingE → Groups → MappingE × Groups
  | [], m, gs => (m, gs)
  | (key, v) :: rest, m, gs =>
    let r := splitStep key v m gs
    splitProps rest r.1 r.2

mutual

/-- Model of `unify` (src/inspector/mod.rs:167-208). The original recurses on group
member lists that are not always smaller (a key whose pre-`@` part is
exactly `"."` reproduces itself, so two such keys loop forever); the
embedding therefore carries fuel, `none` modelling non-termination. A
single attribute yields the one-entry mapping under its own flat name;
otherwise the props are split into direct entries and groups and every
group is unified recursively. -/
def unify (fuel : Nat) (props : List Attr) : Option MappingE :=
  match fuel with
  | 0 => none
  | fuel + 1 =>
    match props with
    | [(k, v)] => some [(k, v)]
    | _ =>
      let r := splitProps props [] []
      processGroups fuel r.2 r.1
termination_by (fuel, 0)

/-- The second loop of `unify` (src/inspector/mod.rs:193-205): each group's
members are unified recursively; a one-entry result is hoisted flat under
`"{group}.{key}"` with leading and trailing dots trimmed, any other result
is nested as a sub-mapping under the group name. -/
def processGroups (fuel : Nat) : Groups → MappingE → Option MappingE
  | [], m => some m
  | (g, members) :: rest, m =>
    match unify fuel members with
    | none => none
    | some sub =>
      match sub with
      | [(k, v)] =>
        processGroups fuel rest
          (minsert m (trimMatches '.' (g ++ '.' :: k)) v)
      | _ =>
        processGroups fuel rest (minsert m g (Value.mapping sub))
termination_by gs _ => (fuel, gs.length + 1)

end

theorem splitOnce_eq_none {c : Char} {s : Str} (h : c ∉ s) :
    splitOnce c s = none := by
  induction s with
  | nil => rfl
  | cons x xs ih =>
    simp only [List.mem_cons, not_or] at h
    have hx : ¬(x = c) := fun he => h.1 he.symm
    simp only [splitOnce, if_neg hx]
    rw [ih h.2]

/-- C3 (amended): in `unify` over several attributes, each flat key is
split at its first `@` into `(selectable, rem)`, defaulting to the whole
key and an empty remainder when no `@` occurs; only attributes whose
`selectable` part is empty — keys beginning with `@` — are inserted
directly into the top-level result under the remainder. A non-empty key
containing no `@` leaves the top-level mapping untouched at its step and is
instead pushed into the selector group named by its segment before the
first dot. -/
theorem claim_C3_direct_insert_only_for_at_keys :
    ∀ (key : Str) (v : Value) (m : MappingE) (gs : Groups),
      (∀ k : Str, key = '@' :: k → splitStep key v m gs = (minsert m k v, gs))
      ∧ (key ≠ [] → '@' ∉ key →
          (splitStep key v m gs).1 = m
          ∧ (splitStep key v m gs).2
              = groupsInsert gs ((splitOnce '.' key).getD (key, [])).1
                  (key.drop (min
                    (((splitOnce '.' key).getD (key, [])).1.length + 1
                      - (if ((splitOnce '.' key).getD (key, [])).2 = []
                          then 1 else 0))
                    key.length), v)) := by
  intro key v m gs
  constructor
  · rintro k rfl
    simp [splitStep, splitOnce]
  · intro hne hat
    rw [splitStep, splitOnce_eq_none hat]
    simp only [Option.getD_none]
    rw [if_neg hne]
    exact ⟨rfl, rfl⟩

/-- C3 witness: a key starting with `@` is inserted directly under its
remainder; a dotted key with no `@` leaves the top-level mapping unchanged
at its step. -/
theorem claim_C3_witness :
    splitStep ['@', 'a'] Value.null [] [] = (minsert [] ['a'] Value.null, [])
    ∧ (splitStep ['x', '.', 'y'] Value.null [] []).1 = [] :=
  ⟨(claim_C3_direct_insert_only_for_at_keys ['@', 'a'] Value.null [] []).1
      ['a'] rfl,
    ((claim_C3_direct_insert_only_for_at_keys ['x', '.', 'y'] Value.null
      [] []).2 (by decide) (by decide)).1⟩

/-- C3 counterexample: the attributes `x.y` and `x.z` contain no `@`, yet
they are not inserted directly at the top level (neither under their own
names nor under the code's empty remainder): they are grouped under the
selector group `x` and the result nests them as `{"x": {"y": 1, "z": 2}}`,
whose only top-level key is `x`. -/
theorem claim_C3_counterexample :
    unify 10 [(['x', '.', 'y'], Value.number 1),
        (['x', '.', 'z'], Value.number 2)]
      = some [(['x'],
          Value.mapping [(['y'], Value.number 1), (['z'], Value.number 2)])]
    ∧ mget [(['x'],
          Value.mapping [(['y'], Value.number 1), (['z'], Value.number 2)])]
        ['x', '.', 'y'] = none
    ∧ mget [(['x'],
          Value.mapping [(['y'], Value.number 1), (['z'], Value.number 2)])]
        [] = none := by
  refine ⟨?_, by decide, by decide⟩
  simp [unify, processGroups, splitProps, splitStep, splitOnce, minsert,
    groupsInsert, trimLeading, trimMatches]

/-- C9: whenever a selector group's recursive unification yields a mapping
with exactly one entry `(k, v)`, no nesting level is introduced: the entry
is hoisted into the parent under `"{group}.{k}"` with leading and trailing
dots trimmed and the inner value unchanged; a group whose recursive result
has two or more entries is nested as a sub-mapping under the group name. -/
theorem claim_C9_single_key_hoisted :
    ∀ (fuel : Nat) (gs : Groups) (g : Str) (members : List Attr)
      (m : MappingE) (k : Str) (v : Value) (sub : MappingE),
      (unify fuel members = some [(k, v)] →
        processGroups fuel ((g, members) :: gs) m
          = processGroups fuel gs
              (minsert m (trimMatches '.' (g ++ '.' :: k)) v))
      ∧ (unify fuel members = some sub → 2 ≤ sub.length →
        processGroups fuel ((g, members) :: gs) m
          = processGroups fuel gs (minsert m g (Value.mapping sub))) := by
  intro fuel gs g members m k v sub
  constructor
  · intro h
    rw [processGroups, h]
  · intro h hlen
    rw [processGroups, h]
    match sub, hlen with
    | a :: b :: t, _ => rfl

/-- C9 witness: a singleton group hoists its single entry flat under the
trimmed `"{group}.{key}"` name. -/
theorem claim_C9_witness :
    processGroups 1 [(['g'], [([], Value.null)])] []
      = some [(['g'], Value.null)] := by
  have h := (claim_C9_single_key_hoisted 1 [] ['g'] [([], Value.null)] []
    [] Value.null []).1 (by simp [unify])
  rw [h]
  simp [processGroups, minsert, trimMatches, trimLeading]

/-- serde `Mapping::remove` (IndexMap `swap_remove`): drop the first entry
with the given key, moving the last entry of the map into its place. -/
def swapRemove : MappingE → Str → MappingE
  | [], _ => []
  | (k', v) :: rest, k =>
    if k' = k then
      match rest.reverse with
      | [] => []
      | last :: revInit => last :: revInit.reverse
    else (k', v) :: swapRemove rest k

/-- In-place value update through `get_mut`: replace the value of the first
entry with the given key (identity when the key is absent, which cannot
happen at the call sites in `remove_empty`). -/
def msetValue : MappingE → Str → Value → MappingE
  | [], _, _ => []
  | (k', v') :: rest, k, v =>
    if k' = k then (k', v) :: rest else (k', v') :: msetValue rest k v

/-- Model of `remove_empty` (src/inspector/mod.rs:210-226) in state-passing form.
The Rust iterates over a snapshot of the keys collected before any removal
and reads each value through `get_mut` at iteration time; an iteration only
modifies or removes its own key and keys are unique, so the value read
equals the snapshot value and the snapshot here carries the pairs (making
the `expect("must exist")` vacuous). A mapping child is pruned recursively
in place and removed if the pruned child is empty; an empty sequence child
is removed; every other entry is untouched. -/
def removeEmptyGo : List (Str × Value) → MappingE → MappingE
  | [], state => state
  | (k, v) :: rest, state =>
    match v with
    | Value.mapping inner =>
      if removeEmptyGo inner inner = [] then
        removeEmptyGo rest (swapRemove state k)
      else
        removeEmptyGo rest (msetValue state k
          (Value.mapping (removeEmptyGo inner inner)))
    | Value.sequence s =>
      if s = [] then removeEmptyGo rest (swapRemove state k)
      else removeEmptyGo rest state
    | _ => removeEmptyGo rest state
termination_by l _ => sizeOf l
decreasing_by all_goals simp <;> omega

/-- Rust `remove_empty` applied to a mapping. -/
def remove_empty (m : MappingE) : MappingE := removeEmptyGo m m

/-- Keys of an association list are pairwise distinct (serde mappings hold
unique keys by construction). -/
def keysNodupB : List (Str × Value) → Bool
  | [] => true
  | (k, _) :: rest => !(rest.any fun p => decide (p.1 = k)) && keysNodupB rest

mutual

/-- Well-formed value: every mapping reachable through mapping children has
unique keys. -/
def wfv : Value → Bool
  | Value.mapping m => keysNodupB m && wfl m
  | _ => true

def wfl : List (Str × Value) → Bool
  | [] => true
  | (_, v) :: rest => wfv v && wfl rest

end

mutual

/-- A value no pass of `remove_empty` over a parent would remove or change:
not an empty mapping or sequence, and mapping children are recursively in
this state (with unique keys). -/
def prunedV : Value → Bool
  | Value.mapping m => decide (m ≠ []) && keysNodupB m && prunedL m
  | Value.sequence s => decide (s ≠ [])
  | _ => true

def prunedL : List (Str × Value) → Bool
  | [] => true
  | (_, v) :: rest => prunedV v && prunedL rest

end

/-- Condition under which `remove_empty` drops an entry holding this value:
the value is a sequence that is empty, or a mapping that is empty once
recursively pruned. -/
def removedCond : Value → Bool
  | Value.mapping inner => decide (remove_empty inner = [])
  | Value.sequence s => decide (s = [])
  | _ => false

/-- What `remove_empty` stores for a kept entry: mapping children are
pruned first (post-order), everything else is unchanged. -/
def pruneTrans : Value → Value
  | Value.mapping inner => Value.mapping (remove_empty inner)
  | v => v

theorem keysNodupB_iff {m : MappingE} :
    keysNodupB m = true ↔ (m.map Prod.fst).Nodup := by
  induction m with
  | nil => simp [keysNodupB]
  | cons p rest ih =>
    obtain ⟨k, v⟩ := p
    simp only [keysNodupB, Bool.and_eq_true, Bool.not_eq_true',
      List.any_eq_false, decide_eq_true_eq, List.map_cons, List.nodup_cons,
      List.mem_map, ih]
    constructor
    · rintro ⟨h1, h2⟩
      exact ⟨fun ⟨p, hp, he⟩ => h1 p hp (by simpa using he), h2⟩
    · rintro ⟨h1, h2⟩
      exact ⟨fun p hp he => h1 ⟨p, hp, he⟩, h2⟩

theorem mget_eq_none_iff {m : MappingE} {k : Str} :
    mget m k = none ↔ k ∉ m.map Prod.fst := by
  induction m with
  | nil => simp [mget]
  | cons p rest ih =>
    obtain ⟨k', v⟩ := p
    by_cases h : k' = k
    · simp [mget, h]
    · rw [mget, if_neg h, ih]
      simp only [List.map_cons, List.mem_cons]
      constructor
      · intro hnk hor
        rcases hor with he | hmem
        · exact h he.symm
        · exact hnk hmem
      · intro hnk hmem
        exact hnk (Or.inr hmem)

theorem mem_of_mget {m : MappingE} {k : Str} {v : Value}
    (h : mget m k = some v) : (k, v) ∈ m := by
  induction m with
  | nil => simp [mget] at h
  | cons p rest ih =>
    obtain ⟨k', v'⟩ := p
    by_cases hk : k' = k
    · simp [mget, hk] at h
      simp [hk, h]
    · simp [mget, hk] at h
      simp [ih h]

theorem mget_of_mem {m : MappingE} {k : Str} {v : Value}
    (hn : keysNodupB m = true) (h : (k, v) ∈ m) : mget m k = some v := by
  induction m with
  | nil => simp at h
  | cons p rest ih =>
    obtain ⟨k', v'⟩ := p
    simp only [keysNodupB, Bool.and_eq_true, Bool.not_eq_true',
      List.any_eq_false, decide_eq_true_eq] at hn
    rcases List.mem_cons.mp h with he | hr
    · cases he
      simp [mget]
    · have hne : k' ≠ k := fun he => hn.1 (k, v) hr (by simp [he])
      simp [mget, hne, ih hn.2 hr]

theorem keys_msetValue (m : MappingE) (k : Str) (v : Value) :
    (msetValue m k v).map Prod.fst = m.map Prod.fst := by
  induction m with
  | nil => rfl
  | cons p rest ih =>
    obtain ⟨k', v'⟩ := p
    by_cases h : k' = k <;> simp [msetValue, h, ih]

theorem keysNodupB_msetValue {m : MappingE} {k : Str} {v : Value}
    (hn : keysNodupB m = true) : keysNodupB (msetValue m k v) = true := by
  rw [keysNodupB_iff, keys_msetValue]
  exact keysNodupB_iff.mp hn

theorem mget_msetValue_self {m : MappingE} {k : Str} {v w : Value}
    (h : mget m k = some w) : mget (msetValue m k v) k = some v := by
  induction m with
  | nil => simp [mget] at h
  | cons p rest ih =>
    obtain ⟨k', v'⟩ := p
    by_cases hk : k' = k
    · simp [msetValue, mget, hk]
    · simp [mget, hk] at h
      simp [msetValue, mget, hk, ih h]

theorem mget_msetValue_ne {m : MappingE} {k k' : Str} {v : Value}
    (h : k' ≠ k) : mget (msetValue m k v) k' = mget m k' := by
  induction m with
  | nil => rfl
  | cons p rest ih =>
    obtain ⟨k0, v0⟩ := p
    by_cases hk : k0 = k
    · rw [msetValue, if_pos hk, mget, mget]
      have hne : ¬(k0 = k') := fun he => h (he.symm.trans hk)
      rw [if_neg hne, if_neg hne]
    · rw [msetValue, if_neg hk, mget, mget]
      by_cases hk' : k0 = k'
      · rw [if_pos hk', if_pos hk']
      · rw [if_neg hk', if_neg hk', ih]

theorem msetValue_eq_self {m : MappingE} {k : Str} {v : Value}
    (h : mget m k = some v) : msetValue m k v = m := by
  induction m with
  | nil => rfl
  | cons p rest ih =>
    obtain ⟨k', v'⟩ := p
    by_cases hk : k' = k
    · simp [mget, hk] at h
      simp [msetValue, hk, h]
    · simp [mget, hk] at h
      simp [msetValue, hk, ih h]

theorem swapRemove_perm {m : MappingE} {k : Str} (hn : keysNodupB m = true) :
    (swapRemove m k).Perm (m.filter fun p => !(decide (p.1 = k))) := by
  induction m with
  | nil => simp [swapRemove]
  | cons p rest ih =>
    obtain ⟨k', v'⟩ := p
    simp only [keysNodupB, Bool.and_eq_true, Bool.not_eq_true',
      List.any_eq_false, decide_eq_true_eq] at hn
    by_cases h : k' = k
    · rw [swapRemove, if_pos h]
      have hfil : List.filter (fun p => !(decide (p.1 = k))) rest = rest := by
        refine List.filter_eq_self.mpr ?_
        intro a ha
        simp only [Bool.not_eq_true', decide_eq_false_iff_not]
        exact fun he => hn.1 a ha (he.trans h.symm)
      have hhead :
          List.filter (fun p => !(decide (p.1 = k))) ((k', v') :: rest)
            = rest := by
        simp [List.filter_cons, h, hfil]
      rw [hhead]
      cases hr : rest.reverse with
      | nil =>
        have : rest = [] := by
          have := congrArg List.reverse hr
          simpa using this
        simp [this]
      | cons last revInit =>
        have h1 : rest = revInit.reverse ++ [last] := by
          rw [← List.reverse_reverse rest, hr, List.reverse_cons]
        rw [h1]
        exact (List.perm_append_singleton _ _).symm
    · rw [swapRemove, if_neg h]
      have hhead :
          List.filter (fun p => !(decide (p.1 = k))) ((k', v') :: rest)
            = (k', v') :: List.filter (fun p => !(decide (p.1 = k))) rest := by
        simp [List.filter_cons, h]
      rw [hhead]
      exact (ih hn.2).cons _

theorem keysNodupB_swapRemove {m : MappingE} {k : Str}
    (hn : keysNodupB m = true) : keysNodupB (swapRemove m k) = true := by
  rw [keysNodupB_iff]
  have hperm := (@swapRemove_perm m k hn).map Prod.fst
  refine hperm.nodup_iff.mpr ?_
  exact ((List.filter_sublist m).map Prod.fst).nodup (keysNodupB_iff.mp hn)

theorem mget_swapRemove_self {m : MappingE} {k : Str}
    (hn : keysNodupB m = true) : mget (swapRemove m k) k = none := by
  rw [mget_eq_none_iff]
  intro hk
  rcases List.mem_map.mp hk with ⟨p, hp, he⟩
  have hpf := ((swapRemove_perm hn).mem_iff).mp hp
  have := (List.mem_filter.mp hpf).2
  rw [he] at this
  simp at this

theorem mget_swapRemove_ne {m : MappingE} {k k' : Str}
    (hn : keysNodupB m = true) (h : k' ≠ k) :
    mget (swapRemove m k) k' = mget m k' := by
  cases hm : mget m k' with
  | some v =>
    have hmem : (k', v) ∈ m := mem_of_mget hm
    have hmemf : (k', v) ∈ m.filter fun p => !(decide (p.1 = k)) :=
      List.mem_filter.mpr ⟨hmem, by simpa using h⟩
    have : (k', v) ∈ swapRemove m k := (swapRemove_perm hn).mem_iff.mpr hmemf
    exact mget_of_mem (keysNodupB_swapRemove hn) this
  | none =>
    rw [mget_eq_none_iff] at hm ⊢
    intro hk
    rcases List.mem_map.mp hk with ⟨p, hp, he⟩
    have hpf := ((swapRemove_perm hn).mem_iff).mp hp
    exact hm (List.mem_map.mpr ⟨p, (List.mem_filter.mp hpf).1, he⟩)

theorem removeEmptyGo_spec :
    ∀ (l : List (Str × Value)) (state : MappingE),
      keysNodupB state = true →
      (l.map Prod.fst).Nodup →
      (∀ p ∈ l, mget state p.1 = some p.2) →
      keysNodupB (removeEmptyGo l state) = true
      ∧ ∀ k : Str, mget (removeEmptyGo l state) k =
          match mget l k with
          | some v => if removedCond v = true then none else some (pruneTrans v)
          | none => mget state k := by
  intro l
  induction l with
  | nil =>
    intro state hs _ _
    have h0 : removeEmptyGo [] state = state := by rw [removeEmptyGo]
    rw [h0]
    exact ⟨hs, fun k => by simp [mget]⟩
  | cons hd rest ih =>
    obtain ⟨k0, v0⟩ := hd
    intro state hs hn hm
    have hm0 : mget state k0 = some v0 := hm _ (List.mem_cons_self _ _)
    simp only [List.map_cons, List.nodup_cons] at hn
    have hk0r : k0 ∉ rest.map Prod.fst := hn.1
    have hnr : (rest.map Prod.fst).Nodup := hn.2
    have step : ∀ state' : MappingE, keysNodupB state' = true →
        (∀ k : Str, k ≠ k0 → mget state' k = mget state k) →
        mget state' k0
          = (if removedCond v0 = true then none else some (pruneTrans v0)) →
        keysNodupB (removeEmptyGo rest state') = true
        ∧ ∀ k : Str, mget (removeEmptyGo rest state') k =
            match mget ((k0, v0) :: rest) k with
            | some v =>
              if removedCond v = true then none else some (pruneTrans v)
            | none => mget state k := by
      intro state' hs' hne hself
      have hm' : ∀ p ∈ rest, mget state' p.1 = some p.2 := by
        intro p hp
        have hpk : p.1 ≠ k0 := fun he => hk0r (he ▸ List.mem_map.mpr ⟨p, hp, rfl⟩)
        rw [hne p.1 hpk]
        exact hm p (List.mem_cons_of_mem _ hp)
      obtain ⟨ihn, ihg⟩ := ih state' hs' hnr hm'
      refine ⟨ihn, fun k => ?_⟩
      by_cases hk : k = k0
      · subst hk
        rw [ihg k, mget_eq_none_iff.mpr hk0r]
        have hl : mget ((k, v0) :: rest) k = some v0 := by
          rw [mget, if_pos rfl]
        rw [hl]
        exact hself
      · have hl : mget ((k0, v0) :: rest) k = mget rest k := by
          rw [mget, if_neg (fun he => hk he.symm)]
        rw [ihg k, hl]
        cases hr : mget rest k with
        | some v => rfl
        | none => exact hne k hk
    cases v0 with
    | mapping inner =>
      by_cases hz : removeEmptyGo inner inner = []
      · have hgo : removeEmptyGo ((k0, Value.mapping inner) :: rest) state
            = removeEmptyGo rest (swapRemove state k0) := by
          rw [removeEmptyGo, if_pos hz]
        rw [hgo]
        refine step (swapRemove state k0) (keysNodupB_swapRemove hs)
          (fun k hk => mget_swapRemove_ne hs hk) ?_
        rw [mget_swapRemove_self hs]
        simp [removedCond, remove_empty, hz]
      · have hgo : removeEmptyGo ((k0, Value.mapping inner) :: rest) state
            = removeEmptyGo rest (msetValue state k0
                (Value.mapping (removeEmptyGo inner inner))) := by
          rw [removeEmptyGo, if_neg hz]
        rw [hgo]
        refine step _ (keysNodupB_msetValue hs)
          (fun k hk => mget_msetValue_ne hk) ?_
        rw [mget_msetValue_self hm0]
        simp [removedCond, pruneTrans, remove_empty, hz]
    | sequence s =>
      by_cases hz : s = []
      · have hgo : removeEmptyGo ((k0, Value.sequence s) :: rest) state
            = removeEmptyGo rest (swapRemove state k0) := by
          rw [removeEmptyGo, if_pos hz]
        rw [hgo]
        refine step (swapRemove state k0) (keysNodupB_swapRemove hs)
          (fun k hk => mget_swapRemove_ne hs hk) ?_
        rw [mget_swapRemove_self hs]
        simp [removedCond, hz]
      · have hgo : removeEmptyGo ((k0, Value.sequence s) :: rest) state
            = removeEmptyGo rest state := by
          rw [removeEmptyGo, if_neg hz]
        rw [hgo]
        refine step state hs (fun _ _ => rfl) ?_
        rw [hm0]
        simp [removedCond, pruneTrans, hz]
    | null =>
      rw [show removeEmptyGo ((k0, Value.null) :: rest) state
          = removeEmptyGo rest state from by
            rw [removeEmptyGo]
            all_goals simp]
      exact step state hs (fun _ _ => rfl)
        (by rw [hm0]; simp [removedCond, pruneTrans])
    | bool b =>
      rw [show removeEmptyGo ((k0, Value.bool b) :: rest) state
          = removeEmptyGo rest state from by
            rw [removeEmptyGo]
            all_goals simp]
      exact step state hs (fun _ _ => rfl)
        (by rw [hm0]; simp [removedCond, pruneTrans])
    | number n =>
      rw [show removeEmptyGo ((k0, Value.number n) :: rest) state
          = removeEmptyGo rest state from by
            rw [removeEmptyGo]
            all_goals simp]
      exact step state hs (fun _ _ => rfl)
        (by rw [hm0]; simp [removedCond, pruneTrans])
    | string s =>
      rw [show removeEmptyGo ((k0, Value.string s) :: rest) state
          = removeEmptyGo rest state from by
            rw [removeEmptyGo]
            all_goals simp]
      exact step state hs (fun _ _ => rfl)
        (by rw [hm0]; simp [removedCond, pruneTrans])
    | tagged t inner =>
      rw [show removeEmptyGo ((k0, Value.tagged t inner) :: rest) state
          = removeEmptyGo rest state from by
            rw [removeEmptyGo]
            all_goals simp]
      exact step state hs (fun _ _ => rfl)
        (by rw [hm0]; simp [removedCond, pruneTrans])

theorem prunedL_iff {l : List (Str × Value)} :
    prunedL l = true ↔ ∀ p ∈ l, prunedV p.2 = true := by
  induction l with
  | nil => simp [prunedL]
  | cons p rest ih =>
    obtain ⟨k, v⟩ := p
    simp [prunedL, ih]

theorem wfl_mem {m : List (Str × Value)} {p : Str × Value}
    (hw : wfl m = true) (hp : p ∈ m) : wfv p.2 = true := by
  induction m with
  | nil => simp at hp
  | cons q rest ih =>
    obtain ⟨k, v⟩ := q
    simp only [wfl, Bool.and_eq_true] at hw
    rcases List.mem_cons.mp hp with he | hr
    · rw [he]
      exact hw.1
    · exact ih hw.2 hr

theorem remove_empty_pruned :
    ∀ (n : Nat) (m : MappingE), sizeOf m ≤ n →
      wfv (Value.mapping m) = true →
      keysNodupB (remove_empty m) = true
      ∧ ∀ p ∈ remove_empty m, prunedV p.2 = true := by
  intro n
  induction n with
  | zero =>
    intro m hsz _
    cases m <;> simp at hsz
  | succ n ih =>
    intro m hsz hwf
    simp only [wfv, Bool.and_eq_true] at hwf
    obtain ⟨hs, hw⟩ := hwf
    obtain ⟨Mn, Mg⟩ := removeEmptyGo_spec m m hs (keysNodupB_iff.mp hs)
      (fun p hp => mget_of_mem hs hp)
    have hre : remove_empty m = removeEmptyGo m m := rfl
    refine ⟨by rw [hre]; exact Mn, ?_⟩
    intro p hp
    have hg : mget (remove_empty m) p.1 = some p.2 := by
      refine mget_of_mem ?_ hp
      rw [hre]
      exact Mn
    rw [hre] at hg
    rw [Mg p.1] at hg
    split at hg
    next v hv =>
      by_cases hremoved : removedCond v = true
      · rw [if_pos hremoved] at hg
        cases hg
      · rw [if_neg hremoved] at hg
        have hp2 : p.2 = pruneTrans v := (Option.some.inj hg).symm
        rw [hp2]
        cases v with
        | mapping inner =>
          have hwin : wfv (Value.mapping inner) = true :=
            wfl_mem hw (mem_of_mget hv)
          have hszin : sizeOf inner ≤ n := by
            have := mget_sizeOf_lt hv
            simp at this
            omega
          obtain ⟨hn1, hn2⟩ := ih inner hszin hwin
          simp only [pruneTrans, prunedV, Bool.and_eq_true]
          refine ⟨⟨?_, hn1⟩, prunedL_iff.mpr hn2⟩
          simp only [removedCond] at hremoved
          simpa using hremoved
        | sequence s =>
          simp only [removedCond] at hremoved
          simp only [pruneTrans, prunedV]
          simpa using hremoved
        | null => rfl
        | bool b => rfl
        | number q => rfl
        | string s => rfl
        | tagged t inner => rfl
    next hv =>
      rw [hv] at hg
      cases hg

theorem removeEmptyGo_pruned_fix :
    ∀ (n : Nat) (l state : List (Str × Value)), sizeOf l ≤ n →
      (∀ p ∈ l, p ∈ state) →
      keysNodupB state = true →
      (∀ p ∈ state, prunedV p.2 = true) →
      removeEmptyGo l state = state := by
  intro n
  induction n with
  | zero =>
    intro l state hsz
    cases l <;> simp at hsz
  | succ n ih =>
    intro l state hsz hsub hs hpr
    cases l with
    | nil => rw [removeEmptyGo]
    | cons hd rest =>
      obtain ⟨k0, v0⟩ := hd
      have hmem : (k0, v0) ∈ state := hsub _ (List.mem_cons_self _ _)
      have hpr0 : prunedV v0 = true := hpr _ hmem
      have hrs : ∀ p ∈ rest, p ∈ state := fun p hp =>
        hsub p (List.mem_cons_of_mem _ hp)
      have hszr : sizeOf rest ≤ n := by simp at hsz; omega
      cases v0 with
      | mapping inner =>
        simp only [prunedV, Bool.and_eq_true] at hpr0
        obtain ⟨⟨hne, hnin⟩, hplin⟩ := hpr0
        have hinner : removeEmptyGo inner inner = inner := by
          refine ih inner inner ?_ (fun p hp => hp) hnin (prunedL_iff.mp hplin)
          simp at hsz
          omega
        have hne' : ¬(removeEmptyGo inner inner = []) := by
          rw [hinner]
          simpa using hne
        have hgo : removeEmptyGo ((k0, Value.mapping inner) :: rest) state
            = removeEmptyGo rest (msetValue state k0
                (Value.mapping (removeEmptyGo inner inner))) := by
          rw [removeEmptyGo, if_neg hne']
        rw [hgo, hinner, msetValue_eq_self (mget_of_mem hs hmem)]
        exact ih rest state hszr hrs hs hpr
      | sequence s =>
        have hsne : ¬(s = []) := by
          simp only [prunedV] at hpr0
          simpa using hpr0
        have hgo : removeEmptyGo ((k0, Value.sequence s) :: rest) state
            = removeEmptyGo rest state := by
          rw [removeEmptyGo, if_neg hsne]
        rw [hgo]
        exact ih rest state hszr hrs hs hpr
      | null =>
        rw [show removeEmptyGo ((k0, Value.null) :: rest) state
            = removeEmptyGo rest state from by
              rw [removeEmptyGo]
              all_goals simp]
        exact ih rest state hszr hrs hs hpr
      | bool b =>
        rw [show removeEmptyGo ((k0, Value.bool b) :: rest) state
            = removeEmptyGo rest state from by
              rw [removeEmptyGo]
              all_goals simp]
        exact ih rest state hszr hrs hs hpr
      | number q =>
        rw [show removeEmptyGo ((k0, Value.number q) :: rest) state
            = removeEmptyGo rest state from by
              rw [removeEmptyGo]
              all_goals simp]
        exact ih rest state hszr hrs hs hpr
      | string s =>
        rw [show removeEmptyGo ((k0, Value.string s) :: rest) state
            = removeEmptyGo rest state from by
              rw [removeEmptyGo]
              all_goals simp]
        exact ih rest state hszr hrs hs hpr
      | tagged t inner =>
        rw [show removeEmptyGo ((k0, Value.tagged t inner) :: rest) state
            = removeEmptyGo rest state from by
              rw [removeEmptyGo]
              all_goals simp]
        exact ih rest state hszr hrs hs hpr

/-- C6: on well-formed mappings (unique keys throughout, which serde
mappings guarantee by construction), `remove_empty` is idempotent; and an
original entry resolves in the result to nothing exactly when its value was
an empty sequence or a mapping that prunes to empty, and otherwise to its
value with mapping children pruned first (post-order) — in particular no
entry holding a non-empty leaf is ever removed or changed. -/
theorem claim_C6_remove_empty_idempotent :
    ∀ m : MappingE, wfv (Value.mapping m) = true →
      remove_empty (remove_empty m) = remove_empty m
      ∧ ∀ (k : Str) (v : Value), mget m k = some v →
          mget (remove_empty m) k
            = (if removedCond v = true then none else some (pruneTrans v)) := by
  intro m hwf
  have hs : keysNodupB m = true := by
    simp only [wfv, Bool.and_eq_true] at hwf
    exact hwf.1
  obtain ⟨Dn, Dp⟩ := remove_empty_pruned (sizeOf m) m le_rfl hwf
  constructor
  · exact removeEmptyGo_pruned_fix (sizeOf (remove_empty m)) (remove_empty m)
      (remove_empty m) le_rfl (fun p hp => hp) Dn Dp
  · intro k v hv
    obtain ⟨Mn, Mg⟩ := removeEmptyGo_spec m m hs (keysNodupB_iff.mp hs)
      (fun p hp => mget_of_mem hs hp)
    have hre : remove_empty m = removeEmptyGo m m := rfl
    rw [hre, Mg k, hv]

/-- C6 witness: pruning removes the empty-mapping entry, keeps the numeric
leaf, and a second pass is a no-op. -/
theorem claim_C6_witness :
    remove_empty (remove_empty
        [(['a'], Value.mapping []), (['b'], Value.number 5)])
      = remove_empty [(['a'], Value.mapping []), (['b'], Value.number 5)]
    ∧ mget (remove_empty [(['a'], Value.mapping []), (['b'], Value.number 5)])
        ['a'] = none := by
  have h := claim_C6_remove_empty_idempotent
    [(['a'], Value.mapping []), (['b'], Value.number 5)] (by decide)
  refine ⟨h.1, ?_⟩
  have h2 := h.2 ['a'] (Value.mapping []) (by decide)
  rw [h2]
  simp [removedCond, remove_empty, removeEmptyGo]
